import Mathlib

set_option linter.unusedVariables false
set_option linter.unreachableTactic false
set_option linter.unusedTactic false

/-!
Verification of the food-allergy-chart core (src/app/page.tsx and the
/api/flavors route) against its specification.

Modelling conventions for the shallow embedding:
* JS strings are modelled by Lean `String` (lists of Unicode scalar values).
  `JSON.stringify` output is always a well-formed UTF-16 string (lone
  surrogates are escaped since ES2019), so this is faithful for every string
  the share-token codec is applied to.
* `String.prototype.trim`, `toLowerCase`, `includes` and
  `localeCompare`-based sorting are modelled by explicit executable
  functions below (`jsTrim`, `jsLower`, `jsIncludes`, `charListLe`); the
  keyword tables and all values the claims mention are ASCII, where these
  models agree with the JS functions.
* JS `Array.prototype.sort` (stable since ES2019) is modelled by
  `List.mergeSort`.
* JS `Set<string>` is modelled by a duplicate-free `List String` built with
  `jsSetOfList` (first occurrence kept, as in `new Set(...)`).
* JSON numbers are modelled as integers; every number occurring in the
  share payload (`v: 1`) is an integer, and the only claim quantifying over
  JSON values (C1) carries the serialize/parse round-trip hypothesis.
-/

/-- Whitespace set of `String.prototype.trim` (ASCII whitespace plus the
Unicode space separators, NBSP, BOM and the line/paragraph separators). -/
def isJsWhitespace (c : Char) : Bool :=
  (0x09 ≤ c.toNat && c.toNat ≤ 0x0D) || c.toNat == 0x20 || c.toNat == 0xA0 ||
  c.toNat == 0x1680 || (0x2000 ≤ c.toNat && c.toNat ≤ 0x200A) ||
  c.toNat == 0x2028 || c.toNat == 0x2029 || c.toNat == 0x202F ||
  c.toNat == 0x205F || c.toNat == 0x3000 || c.toNat == 0xFEFF

/-- Model of `String.prototype.trim`. -/
def jsTrim (s : String) : String :=
  ⟨(((s.data.dropWhile isJsWhitespace).reverse.dropWhile isJsWhitespace).reverse)⟩

/-- Model of `String.prototype.toLowerCase` (ASCII range; all keyword
tables and compared literals in the source are ASCII). -/
def jsLower (s : String) : String :=
  ⟨s.data.map Char.toLower⟩

/-- Does `hay` start with `needle`? (helper for `jsIncludes`). -/
def listStartsWith : List Char → List Char → Bool
  | _, [] => true
  | [], _ :: _ => false
  | h :: hs, n :: ns => h == n && listStartsWith hs ns

/-- Substring occurrence test on character lists. -/
def listContains : List Char → List Char → Bool
  | [], needle => listStartsWith [] needle
  | h :: t, needle => listStartsWith (h :: t) needle || listContains t needle

/-- Model of `String.prototype.includes`. -/
def jsIncludes (s needle : String) : Bool :=
  listContains s.data needle.data

/-- Lexicographic-by-code-point comparison used to model
`(a, b) => a.flavor.localeCompare(b.flavor)` as a sort comparator.
(`localeCompare` collation is environment dependent; the claims only state
"sorted by name", which holds for this total preorder.) -/
def charListLe : List Char → List Char → Bool
  | [], _ => true
  | _ :: _, [] => false
  | a :: as, b :: bs =>
    if a.toNat < b.toNat then true
    else if b.toNat < a.toNat then false
    else charListLe as bs

/-- String comparator derived from `charListLe`. -/
def strLe (a b : String) : Bool := charListLe a.data b.data

/-- `new Set(array)` for strings: duplicate-free list keeping the first
occurrence of each element. -/
def jsSetOfList (l : List String) : List String :=
  l.foldl (fun acc x => if acc.contains x then acc else acc ++ [x]) []

/-- The fixed allergen column list `ALLERGENS`. -/
inductive Allergen where
  | egg | milk | peanuts | sesame | soy | treeNuts | wheat
deriving DecidableEq, Fintype

/-- The display name of each allergen column. -/
def allergenName : Allergen → String
  | .egg => "Egg"
  | .milk => "Milk"
  | .peanuts => "Peanuts"
  | .sesame => "Sesame"
  | .soy => "Soy"
  | .treeNuts => "Tree Nuts"
  | .wheat => "Wheat"

/-- The closed `Category` union type. -/
inductive Category where
  | iceCream | mixIn | cake | coneBowl | other
deriving DecidableEq, Fintype

/-- The string spelling of each category (the TS string-literal values). -/
def categoryLabel : Category → String
  | .iceCream => "Ice Cream"
  | .mixIn => "Mix-In"
  | .cake => "Cake"
  | .coneBowl => "Cone/Bowl"
  | .other => "Other"

/-- Item origin (`source: 'master' | 'manual'`). -/
inductive Source where
  | master | manual
deriving DecidableEq, Fintype

/-- `FlavorRecord`. Allergen values are modelled as raw strings because the
manual-row loader casts stored values without normalizing them, so at
runtime a record can carry any string; `normalizeValue` canonicalizes to
one of "Yes" / "No" / "Unknown". -/
structure FlavorRecord where
  flavor : String
  category : Category
  allergens : Allergen → String
  source : Source
deriving DecidableEq

/-- A master row before a `source` tag is attached
(`Omit<FlavorRecord, 'source'>`). -/
structure MasterRow where
  flavor : String
  category : Category
  allergens : Allergen → String
deriving DecidableEq

/-- `normalizeValue`: trim, lower-case, and map exactly "yes"/"no" to the
canonical values, everything else to "Unknown". -/
def normalizeValue (v : String) : String :=
  let t := jsLower (jsTrim v)
  if t = "yes" then "Yes"
  else if t = "no" then "No"
  else "Unknown"

/-- `safeCategory`: pass through exactly the five category spellings,
anything else becomes Mix-In. -/
def safeCategory (v : String) : Category :=
  if v = "Ice Cream" then .iceCream
  else if v = "Mix-In" then .mixIn
  else if v = "Cake" then .cake
  else if v = "Cone/Bowl" then .coneBowl
  else if v = "Other" then .other
  else .mixIn

/-- `inferCategory`: ordered keyword heuristics on the lower-cased name. -/
def inferCategory (name : String) : Category :=
  let t := jsLower name
  if jsIncludes t "ice cream" || jsIncludes t "sorbet" ||
      jsIncludes t "frozen dessert" then .iceCream
  else if jsIncludes t "cake" || jsIncludes t "brownie" ||
      jsIncludes t "cupcake" || jsIncludes t "muffin" ||
      jsIncludes t "pie" then .cake
  else if jsIncludes t "cone" || jsIncludes t "waffle" ||
      jsIncludes t "bowl" then .coneBowl
  else if jsIncludes t "cookies" || jsIncludes t "cookie" ||
      jsIncludes t "sprinkles" || jsIncludes t "chips" ||
      jsIncludes t "nuts" || jsIncludes t "almonds" ||
      jsIncludes t "walnuts" || jsIncludes t "pecans" ||
      jsIncludes t "cashews" || jsIncludes t "pistach" ||
      jsIncludes t "peanuts" || jsIncludes t "m&m" ||
      jsIncludes t "oreo" || jsIncludes t "fudge" ||
      jsIncludes t "ganache" || jsIncludes t "caramel" ||
      jsIncludes t "marshmallow" || jsIncludes t "whipped" ||
      jsIncludes t "topping" then .mixIn
  else .mixIn

/-- A raw persisted manual item as decoded from localStorage JSON
(fields may be absent; allergen values are arbitrary strings). -/
structure RawManual where
  flavor : Option String
  category : Option String
  allergens : Option (List (String × String))

/-- `m.allergens?.[a]`: optional-chained key lookup in the stored map. -/
def rawLookup (m : Option (List (String × String))) (k : String) : Option String :=
  m.bind fun l => (l.find? fun p => p.1 == k).map (·.2)

/-- The per-element manual-row normalizer from the `manualRows` useState
initializer: drop if the trimmed name is empty, otherwise build a full
record; the stored category (or the classifier result) goes through
`safeCategory`; stored allergen values are used as-is (the source merely
casts them), missing ones default to "Unknown". -/
def normalizeManualItem (m : RawManual) : Option FlavorRecord :=
  let flavor := jsTrim (m.flavor.getD "")
  if flavor = "" then none
  else some
    { flavor := flavor
      category := safeCategory (m.category.getD (categoryLabel (inferCategory flavor)))
      allergens := fun a => (rawLookup m.allergens (allergenName a)).getD "Unknown"
      source := .manual }

/-- The manual-row normalizer as the spec describes it: identical except
that every stored allergen value is passed through `normalizeValue`
("filling every attribute via normalizeAllergenValue"). -/
def specNormalizeManualItem (m : RawManual) : Option FlavorRecord :=
  let flavor := jsTrim (m.flavor.getD "")
  if flavor = "" then none
  else some
    { flavor := flavor
      category := safeCategory (m.category.getD (categoryLabel (inferCategory flavor)))
      allergens := fun a => normalizeValue ((rawLookup m.allergens (allergenName a)).getD "Unknown")
      source := .manual }

/-- `confirmIfMissing`: the export confirmation gate.  The
`window.confirm` capability is injected as the `answer` parameter. -/
def confirmIfMissing (selectedCount totalCount : Nat) (answer : Bool) : Bool :=
  if totalCount ≤ 0 then true
  else if selectedCount ≥ totalCount then true
  else answer

/-! ### Share-token codec: base64url over UTF-8 bytes -/

/-- The standard base64 alphabet used by `btoa`/`atob`. -/
def b64Alphabet : List Char :=
  "ABCDEFGHIJKLMNOPQRSTUVWXYZabcdefghijklmnopqrstuvwxyz0123456789+/".data

/-- Alphabet character of a six-bit value. -/
def b64Char (n : Nat) : Char := b64Alphabet.getD n 'A'

/-- Index of a character in the base64 alphabet. -/
def b64Val (c : Char) : Option Nat := b64Alphabet.findIdx? (· == c)

/-- Six-bit groups of a byte sequence (three bytes to four sextets; a
trailing group of one or two bytes yields two or three sextets). -/
def sextetsOf : List Nat → List Nat
  | [] => []
  | [b0] => [b0 / 4, b0 % 4 * 16]
  | [b0, b1] => [b0 / 4, b0 % 4 * 16 + b1 / 16, b1 % 16 * 4]
  | b0 :: b1 :: b2 :: rest =>
      b0 / 4 :: (b0 % 4 * 16 + b1 / 16) :: (b1 % 16 * 4 + b2 / 64) :: b2 % 64 :: sextetsOf rest

/-- Number of `=` padding characters for a byte count. -/
def b64PadLen (n : Nat) : Nat :=
  match n % 3 with
  | 1 => 2
  | 2 => 1
  | _ => 0

/-- `btoa` on a byte sequence: alphabet characters plus `=` padding. -/
def base64Encode (bytes : List Nat) : List Char :=
  (sextetsOf bytes).map b64Char ++ List.replicate (b64PadLen bytes.length) '='

/-- UTF-8 encoding of one Unicode scalar value. -/
def utf8EncodeChar (n : Nat) : List Nat :=
  if n < 0x80 then [n]
  else if n < 0x800 then [0xC0 + n / 64, 0x80 + n % 64]
  else if n < 0x10000 then [0xE0 + n / 4096, 0x80 + n / 64 % 64, 0x80 + n % 64]
  else [0xF0 + n / 262144, 0x80 + n / 4096 % 64, 0x80 + n / 64 % 64, 0x80 + n % 64]

/-- UTF-8 byte sequence of a string (`TextEncoder.encode` /
`Buffer.from(s, 'utf8')`). -/
def utf8Encode (s : String) : List Nat :=
  (s.data.map fun c => utf8EncodeChar c.toNat).flatten

/-- The `+` to `-` and `/` to `_` substitution of `toBase64Url`. -/
def subUrl (c : Char) : Char :=
  if c = '+' then '-' else if c = '/' then '_' else c

/-- The inverse substitution applied by `fromBase64Url`. -/
def unsubUrl (c : Char) : Char :=
  if c = '-' then '+' else if c = '_' then '/' else c

/-- `.replace(/=+$/g, '')`: drop every trailing `=`. -/
def stripTrailingEq (l : List Char) : List Char :=
  (l.reverse.dropWhile (· == '=')).reverse

/-- `toBase64Url`: base64 of the UTF-8 bytes, URL-safe substitution,
padding stripped. -/
def toBase64Url (s : String) : String :=
  ⟨stripTrailingEq ((base64Encode (utf8Encode s)).map subUrl)⟩

/-- ASCII whitespace stripped by forgiving-base64 (`atob`). -/
def isB64Whitespace (c : Char) : Bool :=
  c.toNat == 0x09 || c.toNat == 0x0A || c.toNat == 0x0C ||
  c.toNat == 0x0D || c.toNat == 0x20

/-- Remove a single trailing `=` if present. -/
def stripOneTrailingEq (l : List Char) : List Char :=
  match l.reverse with
  | '=' :: t => t.reverse
  | _ => l

/-- Reassemble bytes from six-bit groups, discarding leftover bits of a
trailing group of two or three sextets (forgiving-base64). -/
def b64DecodeChunks : List Nat → List Nat
  | s0 :: s1 :: s2 :: s3 :: rest =>
      (s0 * 4 + s1 / 16) :: (s1 % 16 * 16 + s2 / 4) :: (s2 % 4 * 64 + s3) ::
        b64DecodeChunks rest
  | [s0, s1] => [s0 * 4 + s1 / 16]
  | [s0, s1, s2] => [s0 * 4 + s1 / 16, s1 % 16 * 16 + s2 / 4]
  | _ => []

/-- Alphabet values of every character, failing on the first character
outside the alphabet. -/
def b64Vals : List Char → Option (List Nat)
  | [] => some []
  | c :: t =>
    match b64Val c, b64Vals t with
    | some v, some vs => some (v :: vs)
    | _, _ => none

/-- `atob`: the WHATWG forgiving-base64 decode.  Fails (throws in JS) when
the length after whitespace removal and `=`-stripping is 1 mod 4 or when a
character is outside the alphabet. -/
def atobDecode (s : List Char) : Option (List Nat) :=
  let data0 := s.filter fun c => !isB64Whitespace c
  let data1 := if data0.length % 4 = 0
    then stripOneTrailingEq (stripOneTrailingEq data0) else data0
  if data1.length % 4 = 1 then none
  else
    match b64Vals data1 with
    | none => none
    | some sextets => some (b64DecodeChunks sextets)

/-- WHATWG UTF-8 decoder in replacement mode (the default `TextDecoder`
error handling, also used by `Buffer.toString('utf8')`): malformed input
produces U+FFFD and never fails. -/
def utf8DecodeRepl : List Nat → List Nat
  | [] => []
  | b :: rest =>
    if b < 0x80 then b :: utf8DecodeRepl rest
    else if b < 0xC2 then 0xFFFD :: utf8DecodeRepl rest
    else if b < 0xE0 then
      match rest with
      | [] => [0xFFFD]
      | b1 :: rest1 =>
        if 0x80 ≤ b1 ∧ b1 < 0xC0 then
          ((b - 0xC0) * 64 + (b1 - 0x80)) :: utf8DecodeRepl rest1
        else 0xFFFD :: utf8DecodeRepl (b1 :: rest1)
    else if b < 0xF0 then
      match rest with
      | [] => [0xFFFD]
      | b1 :: rest1 =>
        if (if b = 0xE0 then 0xA0 else 0x80) ≤ b1 ∧
            b1 ≤ (if b = 0xED then 0x9F else 0xBF) then
          match rest1 with
          | [] => [0xFFFD]
          | b2 :: rest2 =>
            if 0x80 ≤ b2 ∧ b2 < 0xC0 then
              ((b - 0xE0) * 4096 + (b1 - 0x80) * 64 + (b2 - 0x80)) :: utf8DecodeRepl rest2
            else 0xFFFD :: utf8DecodeRepl (b2 :: rest2)
        else 0xFFFD :: utf8DecodeRepl (b1 :: rest1)
    else if b < 0xF5 then
      match rest with
      | [] => [0xFFFD]
      | b1 :: rest1 =>
        if (if b = 0xF0 then 0x90 else 0x80) ≤ b1 ∧
            b1 ≤ (if b = 0xF4 then 0x8F else 0xBF) then
          match rest1 with
          | [] => [0xFFFD]
          | b2 :: rest2 =>
            if 0x80 ≤ b2 ∧ b2 < 0xC0 then
              match rest2 with
              | [] => [0xFFFD]
              | b3 :: rest3 =>
                if 0x80 ≤ b3 ∧ b3 < 0xC0 then
                  ((b - 0xF0) * 262144 + (b1 - 0x80) * 4096 + (b2 - 0x80) * 64 +
                    (b3 - 0x80)) :: utf8DecodeRepl rest3
                else 0xFFFD :: utf8DecodeRepl (b3 :: rest3)
            else 0xFFFD :: utf8DecodeRepl (b2 :: rest2)
        else 0xFFFD :: utf8DecodeRepl (b1 :: rest1)
    else 0xFFFD :: utf8DecodeRepl rest

/-- `TextDecoder('utf-8')` strips a leading byte-order mark. -/
def stripBom : List Nat → List Nat
  | 0xEF :: 0xBB :: 0xBF :: rest => rest
  | l => l

/-- `new TextDecoder().decode(bytes)`. -/
def textDecode (bytes : List Nat) : String :=
  ⟨(utf8DecodeRepl (stripBom bytes)).map Char.ofNat⟩

/-- `fromBase64Url`: reverse the substitution, re-pad to a multiple of
four, `atob`, UTF-8 decode.  `none` models the JS exception caught by the
caller (only `atob` can throw; the UTF-8 stage is total). -/
def fromBase64Url (s : String) : Option String :=
  let b64 := s.data.map unsubUrl
  let pad := if b64.length % 4 = 0 then [] else List.replicate (4 - b64.length % 4) '='
  (atobDecode (b64 ++ pad)).map textDecode

/-! ### JSON model (numbers as integers; see the header note) -/

/-- JSON values.  Numbers are modelled as integers: the share payload only
contains integer numbers, and the codec round-trip claim is guarded by a
serialize/parse hypothesis. -/
inductive Json where
  | null
  | bool (b : Bool)
  | num (n : Int)
  | str (s : String)
  | arr (elems : List Json)
  | obj (members : List (String × Json))

/-- Lower-case hexadecimal digit. -/
def hexDigitChar (n : Nat) : Char := "0123456789abcdef".data.getD n '0'

/-- `JSON.stringify` escaping for one character inside a string literal. -/
def escapeJsonChar (c : Char) : List Char :=
  if c = '"' then ['\\', '"']
  else if c = '\\' then ['\\', '\\']
  else if c = '\x08' then ['\\', 'b']
  else if c = '\x09' then ['\\', 't']
  else if c = '\x0A' then ['\\', 'n']
  else if c = '\x0C' then ['\\', 'f']
  else if c = '\x0D' then ['\\', 'r']
  else if c.toNat < 0x20 then
    ['\\', 'u', '0', '0', hexDigitChar (c.toNat / 16), hexDigitChar (c.toNat % 16)]
  else [c]

/-- A JSON string literal with quotes and escapes. -/
def quoteJsonString (s : String) : List Char :=
  '"' :: (s.data.map escapeJsonChar).flatten ++ ['"']

/-- Decimal digits of a natural number, with a fuel argument so that
applications reduce definitionally (the fuel `n + 1` always suffices). -/
def natDigitsGo : Nat → Nat → List Char
  | 0, _ => []
  | fuel + 1, n =>
    if n < 10 then [Char.ofNat (48 + n)]
    else natDigitsGo fuel (n / 10) ++ [Char.ofNat (48 + n % 10)]

/-- Decimal digits of a natural number. -/
def natDigits (n : Nat) : List Char := natDigitsGo (n + 1) n

/-- Decimal representation of an integer. -/
def intToDec (i : Int) : List Char :=
  if i < 0 then '-' :: natDigits i.natAbs else natDigits i.natAbs

mutual

/-- `JSON.stringify` (on the integer-number JSON model). -/
def jsonStringify : Json → List Char
  | .null => "null".data
  | .bool true => "true".data
  | .bool false => "false".data
  | .num i => intToDec i
  | .str s => quoteJsonString s
  | .arr xs => '[' :: stringifyElems xs ++ [']']
  | .obj kvs => '\x7b' :: stringifyMembers kvs ++ ['\x7d']

/-- Comma-separated serialization of array elements. -/
def stringifyElems : List Json → List Char
  | [] => []
  | [x] => jsonStringify x
  | x :: y :: rest => jsonStringify x ++ ',' :: stringifyElems (y :: rest)

/-- Comma-separated serialization of object members. -/
def stringifyMembers : List (String × Json) → List Char
  | [] => []
  | [(k, v)] => quoteJsonString k ++ ':' :: jsonStringify v
  | (k, v) :: m :: rest =>
      (quoteJsonString k ++ ':' :: jsonStringify v) ++ ',' :: stringifyMembers (m :: rest)

end

/-- JSON whitespace. -/
def isJsonWs (c : Char) : Bool :=
  c == ' ' || c == '\x09' || c == '\x0A' || c == '\x0D'

/-- Skip JSON whitespace. -/
def skipJsonWs (cs : List Char) : List Char := cs.dropWhile isJsonWs

/-- Hexadecimal digit value. -/
def hexVal (c : Char) : Option Nat :=
  if 48 ≤ c.toNat && c.toNat ≤ 57 then some (c.toNat - 48)
  else if 97 ≤ c.toNat && c.toNat ≤ 102 then some (c.toNat - 87)
  else if 65 ≤ c.toNat && c.toNat ≤ 70 then some (c.toNat - 55)
  else none

/-- Parse the remainder of a JSON string literal (after the opening
quote); returns the decoded characters and the input after the closing
quote. -/
def parseStringRest : List Char → Option (List Char × List Char)
  | [] => none
  | c :: rest =>
    if c = '"' then some ([], rest)
    else if c = '\\' then
      match rest with
      | [] => none
      | 'u' :: h1 :: h2 :: h3 :: h4 :: rest1 =>
        match hexVal h1, hexVal h2, hexVal h3, hexVal h4 with
        | some a, some b, some d, some e =>
          (parseStringRest rest1).map fun r =>
            (Char.ofNat (((a * 16 + b) * 16 + d) * 16 + e) :: r.1, r.2)
        | _, _, _, _ => none
      | e :: rest1 =>
        match
          (if e = '"' then some '"'
           else if e = '\\' then some '\\'
           else if e = '/' then some '/'
           else if e = 'b' then some '\x08'
           else if e = 'f' then some '\x0C'
           else if e = 'n' then some '\x0A'
           else if e = 'r' then some '\x0D'
           else if e = 't' then some '\x09'
           else none) with
        | some ch => (parseStringRest rest1).map fun r => (ch :: r.1, r.2)
        | none => none
    else if c.toNat < 0x20 then none
    else (parseStringRest rest).map fun r => (c :: r.1, r.2)

/-- Parse a nonempty run of decimal digits as a natural number. -/
def parseDigits (cs : List Char) : Option (Nat × List Char) :=
  let digs := cs.takeWhile fun c => 48 ≤ c.toNat && c.toNat ≤ 57
  if digs = [] then none
  else some (digs.foldl (fun acc c => acc * 10 + (c.toNat - 48)) 0, cs.drop digs.length)

mutual

/-- Fuel-driven recursive-descent JSON value parse.  (Faithful to
`JSON.parse` on the outputs of `jsonStringify`; numbers are integer-only
per the model note.) -/
def parseJsonVal : Nat → List Char → Option (Json × List Char)
  | 0, _ => none
  | fuel + 1, cs =>
    match cs with
    | 'n' :: 'u' :: 'l' :: 'l' :: rest => some (.null, rest)
    | 't' :: 'r' :: 'u' :: 'e' :: rest => some (.bool true, rest)
    | 'f' :: 'a' :: 'l' :: 's' :: 'e' :: rest => some (.bool false, rest)
    | '"' :: rest => (parseStringRest rest).map fun r => (.str ⟨r.1⟩, r.2)
    | '[' :: rest =>
      match skipJsonWs rest with
      | ']' :: rest2 => some (.arr [], rest2)
      | rest1 => (parseJsonElems fuel rest1).map fun r => (.arr r.1, r.2)
    | '\x7b' :: rest =>
      match skipJsonWs rest with
      | '\x7d' :: rest2 => some (.obj [], rest2)
      | rest1 => (parseJsonMembers fuel rest1).map fun r => (.obj r.1, r.2)
    | '-' :: rest => (parseDigits rest).map fun r => (.num (-(r.1 : Int)), r.2)
    | _ => (parseDigits cs).map fun r => (.num (r.1 : Int), r.2)

/-- Parse one or more comma-separated array elements up to `]`. -/
def parseJsonElems : Nat → List Char → Option (List Json × List Char)
  | 0, _ => none
  | fuel + 1, cs => do
    let (v, rest) ← parseJsonVal fuel cs
    match skipJsonWs rest with
    | ',' :: rest2 => (parseJsonElems fuel (skipJsonWs rest2)).map fun r => (v :: r.1, r.2)
    | ']' :: rest2 => some ([v], rest2)
    | _ => none

/-- Parse one or more comma-separated object members up to the closing
brace. -/
def parseJsonMembers : Nat → List Char → Option (List (String × Json) × List Char)
  | 0, _ => none
  | fuel + 1, cs =>
    match cs with
    | '"' :: rest => do
      let (k, rest1) ← parseStringRest rest
      match skipJsonWs rest1 with
      | ':' :: rest2 => do
        let (v, rest3) ← parseJsonVal fuel (skipJsonWs rest2)
        match skipJsonWs rest3 with
        | ',' :: rest4 =>
          (parseJsonMembers fuel (skipJsonWs rest4)).map fun r =>
            ((⟨k⟩, v) :: r.1, r.2)
        | '\x7d' :: rest4 => some ([(⟨k⟩, v)], rest4)
        | _ => none
      | _ => none
    | _ => none

end

/-- `JSON.parse`: parse one value, allow surrounding whitespace, require
the input to be fully consumed. -/
def jsonParse (s : String) : Option Json :=
  match parseJsonVal (2 * s.data.length + 2) (skipJsonWs s.data) with
  | some (v, rest) => if skipJsonWs rest = [] then some v else none
  | none => none

/-- `safeParseJson`: `none` when the input is absent or `""` (JS falsy
check on the string) or when `JSON.parse` throws. -/
def safeParseJson (s : Option String) : Option Json :=
  match s with
  | none => none
  | some str => if str = "" then none else jsonParse str

/-- Is a JSON value falsy as a JS value (`!payload`)? -/
def jsFalsyJson : Json → Bool
  | .null => true
  | .bool b => !b
  | .num n => n == 0
  | .str s => s == ""
  | _ => false

/-- The three distinct share-link error kinds. -/
inductive ShareError where
  | badChars | couldNotParse | couldNotDecode
deriving DecidableEq, Fintype

/-- The user-presentable message of each error kind. -/
def shareErrorMessage : ShareError → String
  | .badChars => "Invalid share link (bad characters)."
  | .couldNotParse => "Invalid share link (could not parse)."
  | .couldNotDecode => "Invalid share link (could not decode)."

/-- The base64url alphabet test `/^[A-Za-z0-9_-]+$/`. -/
def isB64UrlChar (c : Char) : Bool :=
  (65 ≤ c.toNat && c.toNat ≤ 90) || (97 ≤ c.toNat && c.toNat ≤ 122) ||
  (48 ≤ c.toNat && c.toNat ≤ 57) || c == '_' || c == '-'

/-- `readSharePayload`, with the `?s` query parameter injected (`none`
when absent).  Returns the payload and the optional error. -/
def readSharePayload (s : Option String) : Option Json × Option ShareError :=
  match s with
  | none => (none, none)
  | some tok =>
    if tok = "" then (none, none)
    else if !(tok.data.all isB64UrlChar) then (none, some .badChars)
    else
      match fromBase64Url tok with
      | none => (none, some .couldNotDecode)
      | some decoded =>
        match safeParseJson (some decoded) with
        | none => (none, some .couldNotParse)
        | some payload =>
          if jsFalsyJson payload then (none, some .couldNotParse)
          else (some payload, none)

/-- Token for a JSON payload: `toBase64Url(JSON.stringify(payload))`. -/
def encodeShareToken (v : Json) : String := toBase64Url ⟨jsonStringify v⟩

/-- JSON-parse of `fromBase64Url` (the decode direction of the codec
round-trip law). -/
def decodeShareToken (t : String) : Option Json := (fromBase64Url t).bind jsonParse

/-! ### Selection/filter engine -/

/-- Comparator for `(a, b) => a.flavor.localeCompare(b.flavor)`. -/
def rowLe (a b : FlavorRecord) : Bool := strLe a.flavor b.flavor

/-- Attach a source tag to a master row. -/
def withSource (r : MasterRow) (s : Source) : FlavorRecord :=
  { flavor := r.flavor, category := r.category, allergens := r.allergens, source := s }

/-- The engine state owned by the component: merged catalog inputs, the
selection set, the UI filter state and the transient search text. -/
structure EngineState where
  manualRows : List FlavorRecord
  masterRows : List MasterRow
  selected : List String
  splitByCategory : Bool
  activeCategories : List Category
  search : String

/-- `allRows`: manual rows first, then master rows tagged `master`, sorted
by name. -/
def allRows (st : EngineState) : List FlavorRecord :=
  (st.manualRows ++ st.masterRows.map (withSource · .master)).mergeSort rowLe

/-- `categories`: the distinct categories present in the catalog (the
derivation sorts them for display; only membership matters below). -/
def categoriesOf (rows : List FlavorRecord) : List Category :=
  (rows.map (·.category)).foldl (fun acc c => if acc.contains c then acc else acc ++ [c]) []

/-- `activeCategorySet`: the active filter, where an empty selection means
every category present in the catalog. -/
def activeCategorySet (st : EngineState) : List Category :=
  if st.activeCategories.isEmpty then categoriesOf (allRows st) else st.activeCategories

/-- `filteredRows`: catalog restricted to the active categories and the
case-insensitive search text. -/
def filteredRows (st : EngineState) : List FlavorRecord :=
  let q := jsLower (jsTrim st.search)
  (allRows st).filter fun r =>
    if !(activeCategorySet st).contains r.category then false
    else if q = "" then true
    else jsIncludes (jsLower r.flavor) q

/-- `selectedRows`: catalog rows whose name is selected, sorted by name. -/
def selectedRows (st : EngineState) : List FlavorRecord :=
  ((allRows st).filter fun r => st.selected.contains r.flavor).mergeSort rowLe

/-- `outputRows`: what will print / export — the selected rows restricted
to the active categories (independent of the search text). -/
def outputRows (st : EngineState) : List FlavorRecord :=
  (selectedRows st).filter fun r => (activeCategorySet st).contains r.category

/-- Per-category buckets built by `groupByCategory` before sorting. -/
structure Grouped where
  iceCream : List FlavorRecord
  mixIn : List FlavorRecord
  cake : List FlavorRecord
  coneBowl : List FlavorRecord
  other : List FlavorRecord

/-- The bucket of a category. -/
def getGroup (g : Grouped) : Category → List FlavorRecord
  | .iceCream => g.iceCream
  | .mixIn => g.mixIn
  | .cake => g.cake
  | .coneBowl => g.coneBowl
  | .other => g.other

/-- `out[r.category]?.push(r)`. -/
def pushRow (g : Grouped) (r : FlavorRecord) : Grouped :=
  match r.category with
  | .iceCream => { g with iceCream := g.iceCream ++ [r] }
  | .mixIn => { g with mixIn := g.mixIn ++ [r] }
  | .cake => { g with cake := g.cake ++ [r] }
  | .coneBowl => { g with coneBowl := g.coneBowl ++ [r] }
  | .other => { g with other := g.other ++ [r] }

/-- `groupByCategory`: distribute the rows into the five fixed buckets,
then sort each bucket by name. -/
def groupByCategory (rows : List FlavorRecord) : Grouped :=
  let g := rows.foldl pushRow ⟨[], [], [], [], []⟩
  { iceCream := g.iceCream.mergeSort rowLe
    mixIn := g.mixIn.mergeSort rowLe
    cake := g.cake.mergeSort rowLe
    coneBowl := g.coneBowl.mergeSort rowLe
    other := g.other.mergeSort rowLe }

/-- The fixed key order of the `groupByCategory` result object
(`Object.keys` insertion order of the literal). -/
def categoryOrder : List Category :=
  [.iceCream, .mixIn, .cake, .coneBowl, .other]

/-- The grouped export sections in fixed category order, with empty
categories omitted (`if (!catRows.length) continue`). -/
def groupedSections (rows : List FlavorRecord) : List (Category × List FlavorRecord) :=
  (categoryOrder.map fun c => (c, getGroup (groupByCategory rows) c)).filter
    fun p => !p.2.isEmpty

/-- PDF/preview table bodies: grouped sections when `splitByCategory` is
on, otherwise the single `outputRows` list. -/
def exportBodies (st : EngineState) : List (List FlavorRecord) :=
  if st.splitByCategory then (groupedSections (outputRows st)).map (·.2)
  else [outputRows st]

/-- `addManualFlavor`: trim the name, no-op when empty; otherwise replace
any same-named manual row, re-sort, and add the name to the selection. -/
def addManualFlavor (st : EngineState) (rec : MasterRow) : EngineState :=
  let flavor := jsTrim rec.flavor
  if flavor = "" then st
  else
    let newRec : FlavorRecord :=
      { flavor := flavor, category := rec.category, allergens := rec.allergens,
        source := .manual }
    let without : List FlavorRecord := st.manualRows.filter fun p => p.flavor ≠ flavor
    { st with
      manualRows := (without ++ [newRec]).mergeSort rowLe
      selected := jsSetOfList (st.selected ++ [flavor]) }

/-- `selectAllMaster`: replace the selection with the master flavor
names. -/
def selectAllMaster (st : EngineState) : EngineState :=
  { st with selected := jsSetOfList (st.masterRows.map (·.flavor)) }

/-- `onPrint`: the print action on the engine-owned state (§4.4 state:
catalog, selection, UI filters).  `answer` injects `window.confirm`; the
returned flag says whether `window.print()` was reached. -/
def onPrint (st : EngineState) (answer : Bool) : EngineState × Bool :=
  if confirmIfMissing (selectedRows st).length st.masterRows.length answer
  then (st, true) else (st, false)

/-! ### Comparator and small list lemmas -/

theorem charListLe_total : ∀ (a b : List Char), (charListLe a b || charListLe b a) = true
  | [], _ => by simp [charListLe]
  | _ :: _, [] => by simp [charListLe]
  | a :: as, b :: bs => by
    simp only [charListLe]
    rcases Nat.lt_trichotomy a.toNat b.toNat with h | h | h
    · simp [h]
    · have h1 : ¬ a.toNat < b.toNat := by omega
      have h2 : ¬ b.toNat < a.toNat := by omega
      simp [h1, h2]
      simpa using charListLe_total as bs
    · simp [h, Nat.lt_asymm h]

theorem charListLe_trans : ∀ (a b c : List Char),
    charListLe a b = true → charListLe b c = true → charListLe a c = true
  | [], _, _, _, _ => by simp [charListLe]
  | _ :: _, [], _, h, _ => by simp [charListLe] at h
  | _ :: _, _ :: _, [], _, h2 => by simp [charListLe] at h2
  | a :: as, b :: bs, c :: cs, h1, h2 => by
    simp only [charListLe] at h1 h2 ⊢
    by_cases hab : a.toNat < b.toNat
    · by_cases hbc : b.toNat < c.toNat
      · have hac : a.toNat < c.toNat := by omega
        rw [if_pos hac]
      · by_cases hcb : c.toNat < b.toNat
        · rw [if_neg hbc, if_pos hcb] at h2
          exact absurd h2 (by simp)
        · have hac : a.toNat < c.toNat := by omega
          rw [if_pos hac]
    · by_cases hba : b.toNat < a.toNat
      · rw [if_neg hab, if_pos hba] at h1
        exact absurd h1 (by simp)
      · rw [if_neg hab, if_neg hba] at h1
        by_cases hbc : b.toNat < c.toNat
        · have hac : a.toNat < c.toNat := by omega
          rw [if_pos hac]
        · by_cases hcb : c.toNat < b.toNat
          · rw [if_neg hbc, if_pos hcb] at h2
            exact absurd h2 (by simp)
          · rw [if_neg hbc, if_neg hcb] at h2
            have hac : ¬ a.toNat < c.toNat := by omega
            have hca : ¬ c.toNat < a.toNat := by omega
            rw [if_neg hac, if_neg hca]
            exact charListLe_trans as bs cs h1 h2

theorem rowLe_trans : ∀ (a b c : FlavorRecord),
    rowLe a b = true → rowLe b c = true → rowLe a c = true :=
  fun a b c h1 h2 => charListLe_trans _ _ _ h1 h2

theorem rowLe_total : ∀ (a b : FlavorRecord), (rowLe a b || rowLe b a) = true :=
  fun a b => charListLe_total a.flavor.data b.flavor.data

theorem mem_jsSetOfList_aux : ∀ (l acc : List String) (x : String),
    (x ∈ l.foldl (fun acc y => if acc.contains y then acc else acc ++ [y]) acc) ↔
      x ∈ acc ∨ x ∈ l
  | [], acc, x => by simp
  | y :: t, acc, x => by
    simp only [List.foldl_cons]
    by_cases h : acc.contains y
    · rw [if_pos h, mem_jsSetOfList_aux t acc x]
      have hy : y ∈ acc := by
        have := List.elem_iff.mp h
        exact this
      constructor
      · rintro (hx | hx)
        · exact Or.inl hx
        · exact Or.inr (List.mem_cons_of_mem _ hx)
      · rintro (hx | hx)
        · exact Or.inl hx
        · rcases List.mem_cons.mp hx with rfl | hx
          · exact Or.inl hy
          · exact Or.inr hx
    · rw [if_neg h, mem_jsSetOfList_aux t (acc ++ [y]) x]
      simp [List.mem_append, or_assoc]

theorem mem_jsSetOfList {x : String} {l : List String} : x ∈ jsSetOfList l ↔ x ∈ l := by
  unfold jsSetOfList
  rw [mem_jsSetOfList_aux]
  simp

/-! ### base64 encode/decode round-trip lemmas -/

theorem dropWhile_replicate_append (p : Char → Bool) (a : Char) (h : p a = true) :
    ∀ (k : Nat) (l : List Char), (List.replicate k a ++ l).dropWhile p = l.dropWhile p
  | 0, l => by simp
  | k + 1, l => by
    rw [List.replicate_succ, List.cons_append, List.dropWhile_cons, if_pos h]
    exact dropWhile_replicate_append p a h k l

theorem dropWhile_eq_self_of_all_false (p : Char → Bool) (l : List Char)
    (h : ∀ c ∈ l, p c = false) : l.dropWhile p = l := by
  cases l with
  | nil => rfl
  | cons a t =>
    rw [List.dropWhile_cons, if_neg]
    rw [h a (List.mem_cons_self a t)]
    simp

theorem stripTrailingEq_append_replicate (X : List Char) (k : Nat)
    (hX : ∀ c ∈ X, (c == '=') = false) :
    stripTrailingEq (X ++ List.replicate k '=') = X := by
  unfold stripTrailingEq
  rw [List.reverse_append, List.reverse_replicate,
    dropWhile_replicate_append _ '=' rfl,
    dropWhile_eq_self_of_all_false _ _ (fun c hc => hX c (List.mem_reverse.mp hc)),
    List.reverse_reverse]

theorem stripOneTrailingEq_append (l : List Char) :
    stripOneTrailingEq (l ++ ['=']) = l := by
  have h : (l ++ ['=']).reverse = '=' :: l.reverse := by simp
  unfold stripOneTrailingEq
  rw [h]
  simp

theorem stripOneTrailingEq_of_all_ne (l : List Char)
    (h : ∀ c ∈ l, (c == '=') = false) : stripOneTrailingEq l = l := by
  unfold stripOneTrailingEq
  split
  · next t heq =>
      exfalso
      have : '=' ∈ l.reverse := by rw [heq]; exact List.mem_cons_self _ _
      have hm := h '=' (List.mem_reverse.mp this)
      simp at hm
  · rfl

theorem b64_char_facts : ∀ n < 64,
    b64Val (b64Char n) = some n ∧ (b64Char n == '=') = false ∧
    isB64Whitespace (b64Char n) = false ∧ unsubUrl (subUrl (b64Char n)) = b64Char n ∧
    (subUrl (b64Char n) == '=') = false := by decide

theorem sextetsOf_lt : ∀ (bytes : List Nat), (∀ b ∈ bytes, b < 256) →
    ∀ x ∈ sextetsOf bytes, x < 64
  | [], _ => by simp [sextetsOf]
  | [b0], h => by
    have h0 := h b0 (by simp)
    simp only [sextetsOf, List.mem_cons, List.mem_singleton]
    rintro x (rfl | rfl | hx) <;> first | omega | cases hx
  | [b0, b1], h => by
    have h0 := h b0 (by simp)
    have h1 := h b1 (by simp)
    simp only [sextetsOf, List.mem_cons, List.mem_singleton]
    rintro x (rfl | rfl | rfl | hx) <;> first | omega | cases hx
  | b0 :: b1 :: b2 :: rest, h => by
    have h0 := h b0 (by simp)
    have h1 := h b1 (by simp)
    have h2 := h b2 (by simp)
    have ih := sextetsOf_lt rest (fun b hb => h b (by simp [hb]))
    simp only [sextetsOf, List.mem_cons]
    rintro x (rfl | rfl | rfl | rfl | hx) <;> first | omega | exact ih x hx

theorem b64DecodeChunks_sextetsOf : ∀ (bytes : List Nat), (∀ b ∈ bytes, b < 256) →
    b64DecodeChunks (sextetsOf bytes) = bytes
  | [], _ => by simp [sextetsOf, b64DecodeChunks]
  | [b0], h => by
    have h0 := h b0 (by simp)
    simp only [sextetsOf, b64DecodeChunks]
    congr 1
    omega
  | [b0, b1], h => by
    have h0 := h b0 (by simp)
    have h1 := h b1 (by simp)
    simp only [sextetsOf, b64DecodeChunks]
    congr 1
    · omega
    · congr 1
      omega
  | b0 :: b1 :: b2 :: rest, h => by
    have h0 := h b0 (by simp)
    have h1 := h b1 (by simp)
    have h2 := h b2 (by simp)
    have ih := b64DecodeChunks_sextetsOf rest (fun b hb => h b (by simp [hb]))
    simp only [sextetsOf, b64DecodeChunks]
    rw [ih]
    congr 1
    · omega
    · congr 1
      · omega
      · congr 1
        omega

theorem b64Vals_map_b64Char : ∀ (sx : List Nat), (∀ x ∈ sx, x < 64) →
    b64Vals (sx.map b64Char) = some sx
  | [], _ => by simp [b64Vals]
  | x :: t, h => by
    have hx := (b64_char_facts x (h x (by simp))).1
    have ih := b64Vals_map_b64Char t (fun y hy => h y (by simp [hy]))
    simp only [List.map_cons, b64Vals]
    rw [hx, ih]

@[simp] theorem string_data_mk (l : List Char) : (String.mk l).data = l := rfl

theorem b64PadLen_add_three (n : Nat) : b64PadLen (n + 3) = b64PadLen n := by
  unfold b64PadLen
  rw [Nat.add_mod_right]

theorem sextetsOf_length_mod : ∀ (bytes : List Nat),
    ((sextetsOf bytes).length % 4 = 0 ∧ b64PadLen bytes.length = 0) ∨
    ((sextetsOf bytes).length % 4 = 2 ∧ b64PadLen bytes.length = 2) ∨
    ((sextetsOf bytes).length % 4 = 3 ∧ b64PadLen bytes.length = 1)
  | [] => by simp [sextetsOf, b64PadLen]
  | [b0] => by simp [sextetsOf, b64PadLen]
  | [b0, b1] => by simp [sextetsOf, b64PadLen]
  | b0 :: b1 :: b2 :: rest => by
    have ih := sextetsOf_length_mod rest
    simp only [sextetsOf, List.length_cons]
    have h3 : rest.length + 1 + 1 + 1 = rest.length + 3 := by omega
    rw [h3, b64PadLen_add_three]
    rcases ih with ⟨h1, h2⟩ | ⟨h1, h2⟩ | ⟨h1, h2⟩
    · exact Or.inl ⟨by omega, h2⟩
    · exact Or.inr (Or.inl ⟨by omega, h2⟩)
    · exact Or.inr (Or.inr ⟨by omega, h2⟩)

theorem atob_roundtrip (B : List Nat) (hB : ∀ b ∈ B, b < 256) :
    atobDecode ((sextetsOf B).map b64Char ++ List.replicate (b64PadLen B.length) '=') =
      some B := by
  have hsx : ∀ x ∈ sextetsOf B, x < 64 := sextetsOf_lt B hB
  have hbody_ne : ∀ c ∈ (sextetsOf B).map b64Char, (c == '=') = false := by
    intro c hc
    obtain ⟨x, hx, rfl⟩ := List.mem_map.mp hc
    exact (b64_char_facts x (hsx x hx)).2.1
  have hbody_ws : ∀ c ∈ (sextetsOf B).map b64Char, isB64Whitespace c = false := by
    intro c hc
    obtain ⟨x, hx, rfl⟩ := List.mem_map.mp hc
    exact (b64_char_facts x (hsx x hx)).2.2.1
  have hfilter : ((sextetsOf B).map b64Char ++
      List.replicate (b64PadLen B.length) '=').filter (fun c => !isB64Whitespace c) =
      (sextetsOf B).map b64Char ++ List.replicate (b64PadLen B.length) '=' := by
    apply List.filter_eq_self.mpr
    intro c hc
    rcases List.mem_append.mp hc with hc | hc
    · simp [hbody_ws c hc]
    · rw [List.eq_of_mem_replicate hc]
      rfl
  have hstrip2 : stripOneTrailingEq (stripOneTrailingEq
      ((sextetsOf B).map b64Char ++ List.replicate (b64PadLen B.length) '=')) =
      (sextetsOf B).map b64Char := by
    rcases sextetsOf_length_mod B with ⟨h1, h2⟩ | ⟨h1, h2⟩ | ⟨h1, h2⟩ <;> rw [h2]
    · simp only [List.replicate, List.append_nil]
      rw [stripOneTrailingEq_of_all_ne _ hbody_ne,
        stripOneTrailingEq_of_all_ne _ hbody_ne]
    · have : List.replicate 2 '=' = ['='] ++ ['='] := rfl
      rw [this, ← List.append_assoc, stripOneTrailingEq_append,
        stripOneTrailingEq_append]
    · have : List.replicate 1 '=' = ['='] := rfl
      rw [this, stripOneTrailingEq_append, stripOneTrailingEq_of_all_ne _ hbody_ne]
  have hlen : ((sextetsOf B).map b64Char ++
      List.replicate (b64PadLen B.length) '=').length % 4 = 0 := by
    rw [List.length_append, List.length_map, List.length_replicate]
    rcases sextetsOf_length_mod B with ⟨h1, h2⟩ | ⟨h1, h2⟩ | ⟨h1, h2⟩ <;> rw [h2] <;> omega
  have hlen1 : ¬ ((sextetsOf B).map b64Char).length % 4 = 1 := by
    rw [List.length_map]
    rcases sextetsOf_length_mod B with ⟨h1, h2⟩ | ⟨h1, h2⟩ | ⟨h1, h2⟩ <;> omega
  simp only [atobDecode]
  rw [hfilter, if_pos hlen, hstrip2, if_neg hlen1, b64Vals_map_b64Char _ hsx]
  exact congrArg some (b64DecodeChunks_sextetsOf B hB)

theorem utf8EncodeChar_lt (n : Nat) (hn : n < 0x110000) : ∀ b ∈ utf8EncodeChar n, b < 256 := by
  intro b hb
  unfold utf8EncodeChar at hb
  by_cases h1 : n < 0x80
  · rw [if_pos h1] at hb
    simp at hb
    omega
  · rw [if_neg h1] at hb
    by_cases h2 : n < 0x800
    · rw [if_pos h2] at hb
      simp at hb
      rcases hb with rfl | rfl <;> omega
    · rw [if_neg h2] at hb
      by_cases h3 : n < 0x10000
      · rw [if_pos h3] at hb
        simp at hb
        rcases hb with rfl | rfl | rfl <;> omega
      · rw [if_neg h3] at hb
        simp at hb
        rcases hb with rfl | rfl | rfl | rfl <;> omega

theorem char_valid_nat (c : Char) : Nat.isValidChar c.toNat := c.valid

theorem char_toNat_lt (c : Char) : c.toNat < 0x110000 := by
  rcases char_valid_nat c with h | ⟨h1, h2⟩ <;> omega

theorem utf8Encode_lt (s : String) : ∀ b ∈ utf8Encode s, b < 256 := by
  intro b hb
  unfold utf8Encode at hb
  rw [List.mem_flatten] at hb
  obtain ⟨l, hl, hbl⟩ := hb
  obtain ⟨c, hc, rfl⟩ := List.mem_map.mp hl
  exact utf8EncodeChar_lt _ (char_toNat_lt c) b hbl

theorem pad_eq (L k : Nat)
    (h : (L % 4 = 0 ∧ k = 0) ∨ (L % 4 = 2 ∧ k = 2) ∨ (L % 4 = 3 ∧ k = 1)) :
    (if L % 4 = 0 then ([] : List Char) else List.replicate (4 - L % 4) '=') =
      List.replicate k '=' := by
  rcases h with ⟨h1, h2⟩ | ⟨h1, h2⟩ | ⟨h1, h2⟩ <;> subst h2 <;> simp [h1]

theorem fromBase64Url_toBase64Url (s : String) :
    fromBase64Url (toBase64Url s) = some (textDecode (utf8Encode s)) := by
  have hB := utf8Encode_lt s
  have hsx := sextetsOf_lt _ hB
  have hsub_ne : ∀ c ∈ ((sextetsOf (utf8Encode s)).map b64Char).map subUrl,
      (c == '=') = false := by
    intro c hc
    obtain ⟨d, hd, rfl⟩ := List.mem_map.mp hc
    obtain ⟨x, hx, rfl⟩ := List.mem_map.mp hd
    exact (b64_char_facts x (hsx x hx)).2.2.2.2
  have h1 : toBase64Url s = ⟨((sextetsOf (utf8Encode s)).map b64Char).map subUrl⟩ := by
    unfold toBase64Url base64Encode
    congr 1
    rw [List.map_append, List.map_replicate]
    exact stripTrailingEq_append_replicate _ _ hsub_ne
  rw [h1]
  simp only [fromBase64Url, string_data_mk]
  rw [List.map_map]
  have hcomp : ((sextetsOf (utf8Encode s)).map b64Char).map (unsubUrl ∘ subUrl) =
      (sextetsOf (utf8Encode s)).map b64Char := by
    have hpt : ∀ c ∈ (sextetsOf (utf8Encode s)).map b64Char,
        (unsubUrl ∘ subUrl) c = id c := by
      intro c hc
      obtain ⟨x, hx, rfl⟩ := List.mem_map.mp hc
      exact (b64_char_facts x (hsx x hx)).2.2.2.1
    rw [List.map_congr_left hpt, List.map_id]
  rw [hcomp, List.length_map]
  rw [pad_eq ((sextetsOf (utf8Encode s)).length) (b64PadLen (utf8Encode s).length)
    (sextetsOf_length_mod _)]
  rw [atob_roundtrip _ hB]
  rfl


theorem utf8DecodeRepl_encodeChar (n : Nat) (hv : Nat.isValidChar n) (tail : List Nat) :
    utf8DecodeRepl (utf8EncodeChar n ++ tail) = n :: utf8DecodeRepl tail := by
  by_cases h1 : n < 0x80
  · have he : utf8EncodeChar n = [n] := by rw [utf8EncodeChar, if_pos h1]
    rw [he, List.singleton_append]
    rw [utf8DecodeRepl.eq_def]
    simp only []
    rw [if_pos h1]
  · by_cases h2 : n < 0x800
    · have he : utf8EncodeChar n = [0xC0 + n / 64, 0x80 + n % 64] := by
        rw [utf8EncodeChar, if_neg h1, if_pos h2]
      rw [he]
      have e1 : ¬ (0xC0 + n / 64 < 0x80) := by omega
      have e2 : ¬ (0xC0 + n / 64 < 0xC2) := by omega
      have e3 : 0xC0 + n / 64 < 0xE0 := by omega
      simp only [List.cons_append, List.nil_append]
      rw [utf8DecodeRepl.eq_def]
      simp only []
      rw [if_neg e1, if_neg e2, if_pos e3,
        if_pos (show 0x80 ≤ 0x80 + n % 64 ∧ 0x80 + n % 64 < 0xC0 by constructor <;> omega)]
      simp only [List.cons.injEq]
      exact ⟨by omega, trivial⟩
    · by_cases h3 : n < 0x10000
      · have he : utf8EncodeChar n =
            [0xE0 + n / 4096, 0x80 + n / 64 % 64, 0x80 + n % 64] := by
          rw [utf8EncodeChar, if_neg h1, if_neg h2, if_pos h3]
        rw [he]
        have e1 : ¬ (0xE0 + n / 4096 < 0x80) := by omega
        have e2 : ¬ (0xE0 + n / 4096 < 0xC2) := by omega
        have e3 : ¬ (0xE0 + n / 4096 < 0xE0) := by omega
        have e4 : 0xE0 + n / 4096 < 0xF0 := by omega
        have e5 : (if 0xE0 + n / 4096 = 0xE0 then 0xA0 else 0x80) ≤ 0x80 + n / 64 % 64 ∧
            0x80 + n / 64 % 64 ≤ (if 0xE0 + n / 4096 = 0xED then 0x9F else 0xBF) := by
          constructor
          · split
            · next h => omega
            · omega
          · split
            · next h =>
                rcases hv with hv | ⟨hv1, hv2⟩ <;> omega
            · omega
        have e6 : 0x80 ≤ 0x80 + n % 64 ∧ 0x80 + n % 64 < 0xC0 := by
          constructor <;> omega
        simp only [List.cons_append, List.nil_append]
        rw [utf8DecodeRepl.eq_def]
        simp only []
        rw [if_neg e1, if_neg e2, if_neg e3, if_pos e4, if_pos e5, if_pos e6]
        simp only [List.cons.injEq]
        exact ⟨by omega, trivial⟩
      · have h4 : n < 0x110000 := by
          rcases hv with hv | ⟨hv1, hv2⟩ <;> omega
        have he : utf8EncodeChar n =
            [0xF0 + n / 262144, 0x80 + n / 4096 % 64, 0x80 + n / 64 % 64, 0x80 + n % 64] := by
          rw [utf8EncodeChar, if_neg h1, if_neg h2, if_neg h3]
        rw [he]
        have e1 : ¬ (0xF0 + n / 262144 < 0x80) := by omega
        have e2 : ¬ (0xF0 + n / 262144 < 0xC2) := by omega
        have e3 : ¬ (0xF0 + n / 262144 < 0xE0) := by omega
        have e4 : ¬ (0xF0 + n / 262144 < 0xF0) := by omega
        have e5 : 0xF0 + n / 262144 < 0xF5 := by omega
        have e6 : (if 0xF0 + n / 262144 = 0xF0 then 0x90 else 0x80) ≤ 0x80 + n / 4096 % 64 ∧
            0x80 + n / 4096 % 64 ≤ (if 0xF0 + n / 262144 = 0xF4 then 0x8F else 0xBF) := by
          constructor
          · split
            · next h => omega
            · omega
          · split
            · next h => omega
            · omega
        have e7 : 0x80 ≤ 0x80 + n / 64 % 64 ∧ 0x80 + n / 64 % 64 < 0xC0 := by
          constructor <;> omega
        have e8 : 0x80 ≤ 0x80 + n % 64 ∧ 0x80 + n % 64 < 0xC0 := by
          constructor <;> omega
        simp only [List.cons_append, List.nil_append]
        rw [utf8DecodeRepl.eq_def]
        simp only []
        rw [if_neg e1, if_neg e2, if_neg e3, if_neg e4, if_pos e5, if_pos e6, if_pos e7,
          if_pos e8]
        simp only [List.cons.injEq]
        exact ⟨by omega, trivial⟩

theorem utf8DecodeRepl_utf8Encode (cs : List Char) :
    utf8DecodeRepl ((cs.map fun c => utf8EncodeChar c.toNat).flatten) =
      cs.map Char.toNat := by
  induction cs with
  | nil => rfl
  | cons c t ih =>
    rw [List.map_cons, List.flatten_cons,
      utf8DecodeRepl_encodeChar c.toNat (char_valid_nat c), ih, List.map_cons]

theorem utf8Encode_head_bom {s : String}
    (h : s.data.head? ≠ some (Char.ofNat 0xFEFF)) :
    stripBom (utf8Encode s) = utf8Encode s := by
  cases hd : s.data with
  | nil =>
    have he : utf8Encode s = [] := by
      unfold utf8Encode
      rw [hd]
      rfl
    rw [he]
    rfl
  | cons c t =>
    have hne : c.toNat ≠ 0xFEFF := by
      intro hc
      apply h
      rw [hd]
      have hco : c = Char.ofNat 0xFEFF := by
        rw [← hc, Char.ofNat_toNat]
      rw [hco]
      rfl
    have henc : utf8Encode s = utf8EncodeChar c.toNat ++
        ((t.map fun c => utf8EncodeChar c.toNat).flatten) := by
      unfold utf8Encode
      rw [hd, List.map_cons, List.flatten_cons]
    rw [henc]
    have hv := char_valid_nat c
    unfold utf8EncodeChar
    by_cases h1 : c.toNat < 0x80
    · rw [if_pos h1, List.singleton_append]
      rw [stripBom.eq_def]
      split
      · next heq =>
          injection heq with ha hrest
          omega
      · rfl
    · by_cases h2 : c.toNat < 0x800
      · rw [if_neg h1, if_pos h2, List.cons_append]
        rw [stripBom.eq_def]
        split
        · next heq =>
            injection heq with ha hrest
            omega
        · rfl
      · by_cases h3 : c.toNat < 0x10000
        · rw [if_neg h1, if_neg h2, if_pos h3]
          simp only [List.cons_append, List.nil_append]
          rw [stripBom.eq_def]
          split
          · next heq =>
              injection heq with ha hrest
              injection hrest with hb hrest2
              injection hrest2 with hc2 hrest3
              exact absurd (show c.toNat = 0xFEFF from by omega) hne
          · rfl
        · rw [if_neg h1, if_neg h2, if_neg h3]
          simp only [List.cons_append, List.nil_append]
          rw [stripBom.eq_def]
          split
          · next heq =>
              have hv4 : c.toNat < 0x110000 := char_toNat_lt c
              injection heq with ha hrest
              omega
          · rfl

theorem textDecode_utf8Encode {s : String}
    (h : s.data.head? ≠ some (Char.ofNat 0xFEFF)) :
    textDecode (utf8Encode s) = s := by
  unfold textDecode
  rw [utf8Encode_head_bom h]
  unfold utf8Encode
  rw [utf8DecodeRepl_utf8Encode, List.map_map]
  have : s.data.map (Char.ofNat ∘ Char.toNat) = s.data.map id := by
    apply List.map_congr_left
    intro c _
    exact Char.ofNat_toNat c
  rw [this, List.map_id]

/-- The string-level codec round trip: decoding the encoding of any string
not starting with U+FEFF (the decoder strips a byte-order mark) returns
the string itself. -/
theorem fromBase64Url_roundtrip (s : String)
    (h : s.data.head? ≠ some (Char.ofNat 0xFEFF)) :
    fromBase64Url (toBase64Url s) = some s := by
  rw [fromBase64Url_toBase64Url, textDecode_utf8Encode h]

theorem char_toNat_ofNat {m : Nat} (h : Nat.isValidChar m) : (Char.ofNat m).toNat = m := by
  rw [Char.ofNat, dif_pos h]
  rfl

theorem natDigitsGo_head : ∀ (fuel n : Nat), n < fuel →
    ∃ d, d < 10 ∧ (natDigitsGo fuel n).head? = some (Char.ofNat (48 + d))
  | 0, n, h => absurd h (by omega)
  | fuel + 1, n, h => by
    simp only [natDigitsGo]
    by_cases h10 : n < 10
    · rw [if_pos h10]
      exact ⟨n, h10, rfl⟩
    · rw [if_neg h10]
      obtain ⟨d, hd, hh⟩ := natDigitsGo_head fuel (n / 10) (by omega)
      refine ⟨d, hd, ?_⟩
      rw [List.head?_append, hh]
      rfl

theorem natDigits_head (n : Nat) :
    ∃ d, d < 10 ∧ (natDigits n).head? = some (Char.ofNat (48 + d)) :=
  natDigitsGo_head (n + 1) n (by omega)

theorem jsonStringify_head_ne_bom (v : Json) :
    (jsonStringify v).head? ≠ some (Char.ofNat 0xFEFF) := by
  cases v with
  | null =>
    intro hc
    exact absurd (congrArg Char.toNat (Option.some.inj hc)) (by decide)
  | bool b =>
    cases b <;>
      (intro hc
       exact absurd (congrArg Char.toNat (Option.some.inj hc)) (by decide))
  | str s =>
    simp only [jsonStringify, quoteJsonString, List.head?_cons]
    intro hc
    exact absurd (congrArg Char.toNat (Option.some.inj hc)) (by decide)
  | arr xs =>
    simp only [jsonStringify, List.head?_cons]
    intro hc
    exact absurd (congrArg Char.toNat (Option.some.inj hc)) (by decide)
  | obj kvs =>
    simp only [jsonStringify, List.head?_cons]
    intro hc
    exact absurd (congrArg Char.toNat (Option.some.inj hc)) (by decide)
  | num i =>
    simp only [jsonStringify, intToDec]
    by_cases h : i < 0
    · rw [if_pos h]
      simp only [List.head?_cons]
      intro hc
      exact absurd (congrArg Char.toNat (Option.some.inj hc)) (by decide)
    · rw [if_neg h]
      obtain ⟨d, hd, hh⟩ := natDigits_head i.natAbs
      rw [hh]
      intro hc
      have h2 := congrArg Char.toNat (Option.some.inj hc)
      rw [char_toNat_ofNat (by left; omega), char_toNat_ofNat (by decide)] at h2
      omega

/-- C1: codec round-trip law.  For every JSON value `v` that survives a
JSON serialize/parse cycle unchanged (the hypothesis), decoding the encoded
share token — `JSON.parse` of `fromBase64Url` of `toBase64Url` of
`JSON.stringify v` — deep-equals `v`.  Non-ASCII text is covered: the
round trip holds for arbitrary string contents (see the witness with "™"). -/
theorem c1_share_codec_roundtrip (v : Json)
    (hv : jsonParse ⟨jsonStringify v⟩ = some v) :
    decodeShareToken (encodeShareToken v) = some v := by
  unfold decodeShareToken encodeShareToken
  rw [fromBase64Url_roundtrip ⟨jsonStringify v⟩ (jsonStringify_head_ne_bom v)]
  exact hv

/-- Witness for C1: a payload-shaped JSON value containing the non-ASCII
character "™" survives a serialize/parse cycle, and the share-token codec
round-trips it. -/
theorem c1_share_codec_roundtrip_witness :
    jsonParse ⟨jsonStringify (Json.obj [("v", Json.num 1),
        ("selected", Json.arr [Json.str "Cake Batter™"])])⟩ =
      some (Json.obj [("v", Json.num 1),
        ("selected", Json.arr [Json.str "Cake Batter™"])]) ∧
    decodeShareToken (encodeShareToken (Json.obj [("v", Json.num 1),
        ("selected", Json.arr [Json.str "Cake Batter™"])])) =
      some (Json.obj [("v", Json.num 1),
        ("selected", Json.arr [Json.str "Cake Batter™"])]) := by
  refine ⟨rfl, c1_share_codec_roundtrip _ rfl⟩

/-- C2: share-token decode failure semantics.  (1) In every failure case
the result carries no payload.  (2) A token with a character outside
`[A-Za-z0-9_-]` yields the "bad characters" error (determined by the
alphabet test alone, before any decode work).  (3) Otherwise a
base64/UTF-8 decode failure (`fromBase64Url` throwing) yields "could not
decode".  (4) A JSON-parse failure on the decoded text yields "could not
parse".  (5) The three error messages are pairwise distinct.  The decoder
is a total function, so no exception escapes. -/
theorem c2_share_decode_failures (tok : Option String) :
    ((readSharePayload tok).2.isSome → (readSharePayload tok).1 = none) ∧
    (∀ t, tok = some t → t ≠ "" → t.data.all isB64UrlChar = false →
      readSharePayload tok = (none, some .badChars)) ∧
    (∀ t, tok = some t → t ≠ "" → t.data.all isB64UrlChar = true →
      fromBase64Url t = none →
      readSharePayload tok = (none, some .couldNotDecode)) ∧
    (∀ t d, tok = some t → t ≠ "" → t.data.all isB64UrlChar = true →
      fromBase64Url t = some d → safeParseJson (some d) = none →
      readSharePayload tok = (none, some .couldNotParse)) ∧
    (∀ e e2 : ShareError, e ≠ e2 → shareErrorMessage e ≠ shareErrorMessage e2) := by
  refine ⟨?_, ?_, ?_, ?_, by decide⟩
  · cases tok with
    | none => simp [readSharePayload]
    | some t =>
      simp only [readSharePayload]
      split
      · simp
      · split
        · simp
        · split
          · simp
          · split
            · simp
            · split <;> simp
  · rintro t rfl ht hall
    simp only [readSharePayload]
    rw [if_neg ht, hall]
    simp
  · rintro t rfl ht hall hfb
    simp only [readSharePayload]
    rw [if_neg ht, hall]
    simp [hfb]
  · rintro t d rfl ht hall hfb hsp
    simp only [readSharePayload]
    rw [if_neg ht, hall]
    simp [hfb, hsp]

/-- Witness for C2: a bad-character token, an undecodable token (length 1
mod 4) and a token that decodes to non-JSON text hit the three error
kinds, each with no payload. -/
theorem c2_share_decode_failures_witness :
    readSharePayload (some "ab$") = (none, some .badChars) ∧
    readSharePayload (some "AAAAA") = (none, some .couldNotDecode) ∧
    readSharePayload (some "aGVsbG8") = (none, some .couldNotParse) := by
  refine ⟨(c2_share_decode_failures (some "ab$")).2.1 "ab$" rfl (by decide) (by decide),
    (c2_share_decode_failures (some "AAAAA")).2.2.1 "AAAAA" rfl (by decide) (by decide) rfl,
    (c2_share_decode_failures (some "aGVsbG8")).2.2.2.1 "aGVsbG8" "hello" rfl (by decide)
      (by decide) rfl rfl⟩

/-- C9: scalar normalizers.  `normalizeValue` returns "Yes" exactly when
the trimmed input case-insensitively equals "yes", "No" exactly for "no",
and "Unknown" otherwise (`normalizeValue "YES " = "Yes"`,
`normalizeValue "maybe" = "Unknown"`); `safeCategory` passes through
exactly the five category spellings and maps everything else to Mix-In
(`safeCategory "Bogus" = Mix-In`). -/
theorem c9_scalar_normalizers :
    (∀ s : String,
      (normalizeValue s = "Yes" ↔ jsLower (jsTrim s) = "yes") ∧
      (normalizeValue s = "No" ↔ jsLower (jsTrim s) = "no") ∧
      (jsLower (jsTrim s) ≠ "yes" → jsLower (jsTrim s) ≠ "no" →
        normalizeValue s = "Unknown")) ∧
    normalizeValue "YES " = "Yes" ∧
    normalizeValue "maybe" = "Unknown" ∧
    (∀ c : Category, safeCategory (categoryLabel c) = c) ∧
    (∀ s : String, (∀ c : Category, s ≠ categoryLabel c) → safeCategory s = .mixIn) ∧
    safeCategory "Bogus" = Category.mixIn := by
  refine ⟨?_, rfl, rfl, by decide, ?_, rfl⟩
  · intro s
    by_cases h1 : jsLower (jsTrim s) = "yes"
    · simp [normalizeValue, h1]
    · by_cases h2 : jsLower (jsTrim s) = "no"
      · simp [normalizeValue, h1, h2]
      · simp [normalizeValue, h1, h2]
  · intro s h
    unfold safeCategory
    rw [if_neg (show s ≠ "Ice Cream" from h .iceCream),
      if_neg (show s ≠ "Mix-In" from h .mixIn),
      if_neg (show s ≠ "Cake" from h .cake),
      if_neg (show s ≠ "Cone/Bowl" from h .coneBowl),
      if_neg (show s ≠ "Other" from h .other)]

/-- Witness for C9: the universal conjuncts applied at concrete inputs
("YeS" normalizes to "Yes"; a non-spelling category string maps to
Mix-In). -/
theorem c9_scalar_normalizers_witness :
    normalizeValue " YeS " = "Yes" ∧ safeCategory "cake" = Category.mixIn := by
  constructor
  · exact ((c9_scalar_normalizers.1 " YeS ").1).mpr (by decide)
  · exact c9_scalar_normalizers.2.2.2.2.1 "cake" (by decide)

/-- C4 counterexample: the claim "any name containing both

"cake" and "nuts" resolves to Cake" fails on the code: a name that also
contains an ice-cream keyword is classified IceCream because rule 1
precedes rule 2. -/
theorem c4_cake_nuts_counterexample :
    jsIncludes (jsLower "Ice Cream Cake with Nuts") "cake" = true ∧
    jsIncludes (jsLower "Ice Cream Cake with Nuts") "nuts" = true ∧
    inferCategory "Ice Cream Cake with Nuts" = Category.iceCream ∧
    Category.iceCream ≠ Category.cake := by decide

/-- C4 (amended): the classifier is a pure total function of the
lower-cased name applying the ordered first-match rules (ice-cream
keywords, then cake keywords, then cone/bowl keywords, then the mix-in
keyword set, with Mix-In as the no-match fallback); the four concrete
classifications of the claim hold; and a name containing both "cake" and
"nuts" resolves to Cake provided it contains none of the ice-cream
keywords (the amendment: rule 1 precedes rule 2, see the
counterexample). -/
theorem c4_classifier_rules :
    inferCategory "Birthday Cake Remix" = Category.cake ∧
    inferCategory "" = Category.mixIn ∧
    inferCategory "Sea Salt Caramel Truffle" = Category.mixIn ∧
    inferCategory "Vanilla Ice Cream" = Category.iceCream ∧
    (∀ name : String,
      (jsIncludes (jsLower name) "ice cream" || jsIncludes (jsLower name) "sorbet" ||
        jsIncludes (jsLower name) "frozen dessert") = true →
      inferCategory name = Category.iceCream) ∧
    (∀ name : String,
      (jsIncludes (jsLower name) "ice cream" || jsIncludes (jsLower name) "sorbet" ||
        jsIncludes (jsLower name) "frozen dessert") = false →
      (jsIncludes (jsLower name) "cake" || jsIncludes (jsLower name) "brownie" ||
        jsIncludes (jsLower name) "cupcake" || jsIncludes (jsLower name) "muffin" ||
        jsIncludes (jsLower name) "pie") = true →
      inferCategory name = Category.cake) ∧
    (∀ name : String,
      (jsIncludes (jsLower name) "ice cream" || jsIncludes (jsLower name) "sorbet" ||
        jsIncludes (jsLower name) "frozen dessert") = false →
      (jsIncludes (jsLower name) "cake" || jsIncludes (jsLower name) "brownie" ||
        jsIncludes (jsLower name) "cupcake" || jsIncludes (jsLower name) "muffin" ||
        jsIncludes (jsLower name) "pie") = false →
      (jsIncludes (jsLower name) "cone" || jsIncludes (jsLower name) "waffle" ||
        jsIncludes (jsLower name) "bowl") = true →
      inferCategory name = Category.coneBowl) ∧
    (∀ name : String,
      (jsIncludes (jsLower name) "ice cream" || jsIncludes (jsLower name) "sorbet" ||
        jsIncludes (jsLower name) "frozen dessert") = false →
      (jsIncludes (jsLower name) "cake" || jsIncludes (jsLower name) "brownie" ||
        jsIncludes (jsLower name) "cupcake" || jsIncludes (jsLower name) "muffin" ||
        jsIncludes (jsLower name) "pie") = false →
      (jsIncludes (jsLower name) "cone" || jsIncludes (jsLower name) "waffle" ||
        jsIncludes (jsLower name) "bowl") = false →
      inferCategory name = Category.mixIn) ∧
    (∀ name : String,
      jsIncludes (jsLower name) "cake" = true →
      jsIncludes (jsLower name) "nuts" = true →
      jsIncludes (jsLower name) "ice cream" = false →
      jsIncludes (jsLower name) "sorbet" = false →
      jsIncludes (jsLower name) "frozen dessert" = false →
      inferCategory name = Category.cake) := by
  refine ⟨by decide, by decide, by decide, by decide, ?_, ?_, ?_, ?_, ?_⟩
  · intro name h1
    simp only [inferCategory]
    rw [h1]
    rfl
  · intro name h1 h2
    simp only [inferCategory]
    rw [h1, h2]
    rfl
  · intro name h1 h2 h3
    simp only [inferCategory]
    rw [h1, h2, h3]
    rfl
  · intro name h1 h2 h3
    simp only [inferCategory]
    rw [h1, h2, h3]
    by_cases h4 : (jsIncludes (jsLower name) "cookies" || jsIncludes (jsLower name) "cookie" ||
        jsIncludes (jsLower name) "sprinkles" || jsIncludes (jsLower name) "chips" ||
        jsIncludes (jsLower name) "nuts" || jsIncludes (jsLower name) "almonds" ||
        jsIncludes (jsLower name) "walnuts" || jsIncludes (jsLower name) "pecans" ||
        jsIncludes (jsLower name) "cashews" || jsIncludes (jsLower name) "pistach" ||
        jsIncludes (jsLower name) "peanuts" || jsIncludes (jsLower name) "m&m" ||
        jsIncludes (jsLower name) "oreo" || jsIncludes (jsLower name) "fudge" ||
        jsIncludes (jsLower name) "ganache" || jsIncludes (jsLower name) "caramel" ||
        jsIncludes (jsLower name) "marshmallow" || jsIncludes (jsLower name) "whipped" ||
        jsIncludes (jsLower name) "topping") = true
    · rw [h4]
      rfl
    · rw [Bool.not_eq_true] at h4
      rw [h4]
      rfl
  · intro name hc hn h1 h2 h3
    simp only [inferCategory]
    rw [h1, h2, h3, hc]
    rfl

/-- Witness for C4: the amended cake-and-nuts rule applied at a concrete
name with no ice-cream keyword. -/
theorem c4_classifier_rules_witness :
    inferCategory "Carrot Cake with Nuts" = Category.cake :=
  c4_classifier_rules.2.2.2.2.2.2.2.2 "Carrot Cake with Nuts"
    (by decide) (by decide) (by decide) (by decide) (by decide)

/-- C5: confirmation gate.  Confirmation is required exactly when the
reference count is nonzero and fewer rows are selected than it: with zero
reference items or with all of them covered the gate passes regardless of
the answer, otherwise the gate's outcome is the user's answer.  Declining
cancels the print (no `window.print` call) and the engine state (catalog,
selection, UI filters) is unchanged. -/
theorem c5_confirmation_gate :
    (∀ sc tc : Nat, ∀ ans : Bool, tc = 0 → confirmIfMissing sc tc ans = true) ∧
    (∀ sc tc : Nat, ∀ ans : Bool, tc ≤ sc → confirmIfMissing sc tc ans = true) ∧
    (∀ sc tc : Nat, ∀ ans : Bool, 0 < tc → sc < tc → confirmIfMissing sc tc ans = ans) ∧
    (∀ st : EngineState, ∀ ans : Bool, (onPrint st ans).1 = st) ∧
    (∀ st : EngineState, 0 < st.masterRows.length →
      (selectedRows st).length < st.masterRows.length →
      (onPrint st false).2 = false) := by
  have hgate : ∀ (sc tc : Nat) (ans : Bool), 0 < tc → sc < tc →
      confirmIfMissing sc tc ans = ans := by
    intro sc tc ans h1 h2
    unfold confirmIfMissing
    rw [if_neg (by omega), if_neg (by omega)]
  refine ⟨?_, ?_, hgate, ?_, ?_⟩
  · intro sc tc ans h
    unfold confirmIfMissing
    rw [if_pos (by omega)]
  · intro sc tc ans h
    unfold confirmIfMissing
    split_ifs <;> first | rfl | omega
  · intro st ans
    unfold onPrint
    split_ifs <;> rfl
  · intro st h1 h2
    unfold onPrint
    rw [hgate _ _ false h1 h2]
    rfl

/-- Sortedness of the merged catalog. -/
theorem allRows_sorted (st : EngineState) :
    (allRows st).Pairwise (fun a b => rowLe a b = true) :=
  List.sorted_mergeSort rowLe_trans rowLe_total _

/-- `selectedRows` is the filter of the already-sorted catalog (the second
sort is the identity). -/
theorem selectedRows_eq (st : EngineState) :
    selectedRows st = (allRows st).filter fun r => st.selected.contains r.flavor :=
  List.mergeSort_of_sorted ((allRows_sorted st).filter _)

/-- `outputRows` as a single filter over the catalog. -/
theorem outputRows_eq (st : EngineState) :
    outputRows st = (allRows st).filter fun r =>
      st.selected.contains r.flavor && (activeCategorySet st).contains r.category := by
  rw [outputRows, selectedRows_eq, List.filter_filter]
  apply List.filter_congr
  intro r hr
  exact Bool.and_comm _ _

/-- C3: search-independence and characterization of `outputRows`: it never
depends on the search text, equals the selected rows intersected with the
active-category filter sorted by name, excludes a selected but
category-hidden item, and includes every selected category-visible item
regardless of the search text. -/
theorem c3_output_rows (st : EngineState) (q q' : String) :
    outputRows { st with search := q } = outputRows { st with search := q' } ∧
    outputRows st = ((allRows st).filter fun r =>
      st.selected.contains r.flavor &&
        (activeCategorySet st).contains r.category).mergeSort rowLe ∧
    (∀ r, r ∈ allRows st → st.selected.contains r.flavor = true →
      (activeCategorySet st).contains r.category = false → r ∉ outputRows st) ∧
    (∀ r, r ∈ allRows st → st.selected.contains r.flavor = true →
      (activeCategorySet st).contains r.category = true → r ∈ outputRows st) := by
  have hmem : ∀ r, r ∈ outputRows st ↔ r ∈ allRows st ∧
      (st.selected.contains r.flavor && (activeCategorySet st).contains r.category) = true := by
    intro r
    rw [outputRows_eq]
    exact List.mem_filter
  refine ⟨rfl, ?_, ?_, ?_⟩
  · rw [outputRows_eq]
    rw [List.mergeSort_of_sorted ((allRows_sorted st).filter _)]
  · intro r hr hsel hcat hout
    have := (hmem r).mp hout
    rw [hsel, hcat] at this
    simp at this
  · intro r hr hsel hcat
    exact (hmem r).mpr ⟨hr, by rw [hsel, hcat]; rfl⟩

/-- Witness for C5: the spec's gate examples — (3, 10) requires
confirmation (declining fails the gate, accepting passes it), (10, 10) and
(0, 0) never ask — and on a one-reference-row state with nothing selected,
declining the print leaves the state unchanged and does not print. -/
theorem c5_confirmation_gate_witness :
    confirmIfMissing 3 10 false = false ∧
    confirmIfMissing 3 10 true = true ∧
    confirmIfMissing 10 10 false = true ∧
    confirmIfMissing 0 0 false = true ∧
    (onPrint ⟨[], [⟨"Vanilla", .iceCream, fun _ => "No"⟩], [], true, [], ""⟩ false).1 =
      ⟨[], [⟨"Vanilla", .iceCream, fun _ => "No"⟩], [], true, [], ""⟩ ∧
    (onPrint ⟨[], [⟨"Vanilla", .iceCream, fun _ => "No"⟩], [], true, [], ""⟩ false).2 =
      false := by
  have hsel : selectedRows ⟨[], [⟨"Vanilla", .iceCream, fun _ => "No"⟩], [], true, [], ""⟩ =
      [] := by
    simp [selectedRows, allRows, withSource]
  refine ⟨c5_confirmation_gate.2.2.1 3 10 false (by omega) (by omega),
    c5_confirmation_gate.2.2.1 3 10 true (by omega) (by omega),
    c5_confirmation_gate.2.1 10 10 false (by omega),
    c5_confirmation_gate.1 0 0 false rfl,
    c5_confirmation_gate.2.2.2.1 _ false,
    c5_confirmation_gate.2.2.2.2 _ (by simp) (by rw [hsel]; simp)⟩

/-- Witness for C3: with category filter restricted to Ice Cream, a
selected Cake row is excluded from the output and a selected Ice Cream row
is included, under a non-empty search text. -/
theorem c3_output_rows_witness :
    (withSource ⟨"Brownie", .cake, fun _ => "No"⟩ .master) ∉
      outputRows ⟨[], [⟨"Brownie", .cake, fun _ => "No"⟩], ["Brownie"], true,
        [.iceCream], "x"⟩ ∧
    (withSource ⟨"Vanilla", .iceCream, fun _ => "No"⟩ .master) ∈
      outputRows ⟨[], [⟨"Vanilla", .iceCream, fun _ => "No"⟩], ["Vanilla"], true,
        [.iceCream], "y"⟩ := by
  constructor
  · apply (c3_output_rows _ "" "").2.2.1
    · simp [allRows, withSource]
    · decide
    · decide
  · apply (c3_output_rows _ "" "").2.2.2
    · simp [allRows, withSource]
    · decide
    · decide

theorem safeCategory_categoryLabel (c : Category) : safeCategory (categoryLabel c) = c := by
  cases c <;> rfl

/-- C10: `selectAllMaster` replaces the whole selection with exactly the
master flavor names: afterwards a name is selected iff it is a master
name, so any previously selected non-master name (in particular a
manual-only name) is dropped, not unioned in; the catalog is untouched. -/
theorem c10_select_all_master (st : EngineState) :
    (∀ n, n ∈ (selectAllMaster st).selected ↔ n ∈ st.masterRows.map (·.flavor)) ∧
    (selectAllMaster st).manualRows = st.manualRows ∧
    (selectAllMaster st).masterRows = st.masterRows ∧
    (∀ n, n ∈ st.selected → n ∉ st.masterRows.map (·.flavor) →
      n ∉ (selectAllMaster st).selected) := by
  have hm : ∀ n, n ∈ (selectAllMaster st).selected ↔ n ∈ st.masterRows.map (·.flavor) := by
    intro n
    unfold selectAllMaster
    exact mem_jsSetOfList
  exact ⟨hm, rfl, rfl, fun n _ hnot hmem => hnot ((hm n).mp hmem)⟩

/-- Witness for C10: a previously selected manual-only name is no longer
selected after `selectAllMaster`, while the master name is. -/
theorem c10_select_all_master_witness :
    "My Flavor" ∉ (selectAllMaster ⟨[], [⟨"A", .mixIn, fun _ => "No"⟩],
      ["My Flavor"], true, [], ""⟩).selected ∧
    "A" ∈ (selectAllMaster ⟨[], [⟨"A", .mixIn, fun _ => "No"⟩],
      ["My Flavor"], true, [], ""⟩).selected := by
  constructor
  · exact (c10_select_all_master _).2.2.2 "My Flavor" (by decide) (by decide)
  · exact ((c10_select_all_master _).1 "A").mpr (by decide)

theorem addManualFlavor_of_ne (st : EngineState) (rec : MasterRow)
    (hne : ¬ jsTrim rec.flavor = "") :
    addManualFlavor st rec = { st with
      manualRows := ((st.manualRows.filter fun p : FlavorRecord =>
          p.flavor ≠ jsTrim rec.flavor) ++
        [(⟨jsTrim rec.flavor, rec.category, rec.allergens, .manual⟩ :
          FlavorRecord)]).mergeSort rowLe
      selected := jsSetOfList (st.selected ++ [jsTrim rec.flavor]) } := by
  simp only [addManualFlavor]
  rw [if_neg hne]

/-- C7: manual-item upsert.  With an empty trimmed name the operation is a
no-op on the whole state.  Otherwise the manual list afterwards contains
exactly one row named by the trimmed name, is sorted by name, and consists
of the old manual rows with that name removed plus the new record (so a
same-named manual row is replaced, never duplicated); the trimmed name is
added to the selection, previously selected names stay selected, and the
master rows are untouched. -/
theorem c7_add_manual_item (st : EngineState) (rec : MasterRow) :
    (jsTrim rec.flavor = "" → addManualFlavor st rec = st) ∧
    (jsTrim rec.flavor ≠ "" →
      ((addManualFlavor st rec).manualRows.countP
        (fun r => r.flavor == jsTrim rec.flavor)) = 1 ∧
      (addManualFlavor st rec).manualRows.Pairwise (fun a b => rowLe a b = true) ∧
      (∀ r : FlavorRecord, r ∈ (addManualFlavor st rec).manualRows ↔
        ((r ∈ st.manualRows ∧ r.flavor ≠ jsTrim rec.flavor) ∨
         r = ⟨jsTrim rec.flavor, rec.category, rec.allergens, .manual⟩)) ∧
      jsTrim rec.flavor ∈ (addManualFlavor st rec).selected ∧
      (∀ n, n ∈ st.selected → n ∈ (addManualFlavor st rec).selected) ∧
      (addManualFlavor st rec).masterRows = st.masterRows) := by
  constructor
  · intro h
    simp only [addManualFlavor]
    rw [if_pos h]
  · intro hne
    rw [addManualFlavor_of_ne st rec hne]
    refine ⟨?_, ?_, ?_, ?_, ?_, rfl⟩
    · show (((st.manualRows.filter fun p : FlavorRecord =>
          p.flavor ≠ jsTrim rec.flavor) ++
          [(⟨jsTrim rec.flavor, rec.category, rec.allergens, .manual⟩ :
            FlavorRecord)]).mergeSort rowLe).countP
          (fun r => r.flavor == jsTrim rec.flavor) = 1
      rw [(List.mergeSort_perm _ rowLe).countP_eq]
      rw [List.countP_append]
      have h0 : (st.manualRows.filter fun p : FlavorRecord =>
          p.flavor ≠ jsTrim rec.flavor).countP
          (fun r => r.flavor == jsTrim rec.flavor) = 0 := by
        apply List.countP_eq_zero.mpr
        intro a ha
        have := (List.mem_filter.mp ha).2
        simp at this ⊢
        exact this
      rw [h0]
      simp
    · exact List.sorted_mergeSort rowLe_trans rowLe_total _
    · intro r
      show r ∈ ((st.manualRows.filter fun p : FlavorRecord =>
          p.flavor ≠ jsTrim rec.flavor) ++
          [(⟨jsTrim rec.flavor, rec.category, rec.allergens, .manual⟩ :
            FlavorRecord)]).mergeSort rowLe ↔ _
      rw [List.mem_mergeSort, List.mem_append, List.mem_filter, List.mem_singleton]
      simp
    · exact mem_jsSetOfList.mpr (by simp)
    · intro n hn
      exact mem_jsSetOfList.mpr (List.mem_append_left _ hn)

/-- Witness for C7: adding a blank-named record is a no-op; adding a
record whose trimmed name collides with an existing manual row leaves
exactly one row of that name and selects it. -/
theorem c7_add_manual_item_witness :
    addManualFlavor ⟨[], [], [], true, [], ""⟩ ⟨"  ", .cake, fun _ => "No"⟩ =
      ⟨[], [], [], true, [], ""⟩ ∧
    ((addManualFlavor ⟨[⟨"Choco", .mixIn, fun _ => "Unknown", .manual⟩], [], [], true, [], ""⟩
        ⟨" Choco ", .cake, fun _ => "Yes"⟩).manualRows.countP
      (fun r => r.flavor == jsTrim " Choco ")) = 1 ∧
    jsTrim " Choco " ∈ (addManualFlavor
      ⟨[⟨"Choco", .mixIn, fun _ => "Unknown", .manual⟩], [], [], true, [], ""⟩
      ⟨" Choco ", .cake, fun _ => "Yes"⟩).selected := by
  refine ⟨(c7_add_manual_item ⟨[], [], [], true, [], ""⟩
      ⟨"  ", .cake, fun _ => "No"⟩).1 (by decide),
    ((c7_add_manual_item ⟨[⟨"Choco", .mixIn, fun _ => "Unknown", .manual⟩], [], [], true, [], ""⟩
      ⟨" Choco ", .cake, fun _ => "Yes"⟩).2 (by decide)).1,
    ((c7_add_manual_item ⟨[⟨"Choco", .mixIn, fun _ => "Unknown", .manual⟩], [], [], true, [], ""⟩
      ⟨" Choco ", .cake, fun _ => "Yes"⟩).2 (by decide)).2.2.2.1⟩

/-- C6 counterexample: the code does NOT pass stored allergen values
through `normalizeAllergenValue` — it casts them verbatim.  For a stored
value "banana" the claimed normalizer (`specNormalizeManualItem`, written
from the spec text) yields "Unknown" but the code keeps "banana", so the
two functions differ at this input. -/
theorem c6_normalize_manual_counterexample :
    normalizeManualItem ⟨some "Choco", none, some [("Egg", "banana")]⟩ ≠
      specNormalizeManualItem ⟨some "Choco", none, some [("Egg", "banana")]⟩ ∧
    (normalizeManualItem ⟨some "Choco", none, some [("Egg", "banana")]⟩).map
      (fun i => i.allergens .egg) = some "banana" ∧
    normalizeValue "banana" = "Unknown" := by
  refine ⟨by decide, by decide, rfl⟩

/-- C6 (amended): the manual-item normalizer returns null exactly when the
name is absent or empty after trimming; otherwise it returns an item whose
name is the trimmed name, whose origin is Manual, whose category is
synthesized via the classifier when none was stored and passed through
`normalizeCategory` (`safeCategory`) otherwise, and whose attributes carry
the stored values verbatim with missing attributes defaulting to "Unknown"
(the amendment: no `normalizeAllergenValue` is applied to stored
values). -/
theorem c6_normalize_manual (m : RawManual) :
    (jsTrim (m.flavor.getD "") = "" → normalizeManualItem m = none) ∧
    (jsTrim (m.flavor.getD "") ≠ "" →
      (normalizeManualItem m).isSome = true ∧
      ∀ item, normalizeManualItem m = some item →
        item.flavor = jsTrim (m.flavor.getD "") ∧
        item.source = .manual ∧
        (m.category = none → item.category = inferCategory (jsTrim (m.flavor.getD ""))) ∧
        (∀ c, m.category = some c → item.category = safeCategory c) ∧
        (∀ a, item.allergens a = (rawLookup m.allergens (allergenName a)).getD "Unknown")) := by
  constructor
  · intro h
    simp only [normalizeManualItem]
    rw [if_pos h]
  · intro hne
    have heq : normalizeManualItem m = some
        { flavor := jsTrim (m.flavor.getD "")
          category := safeCategory (m.category.getD
            (categoryLabel (inferCategory (jsTrim (m.flavor.getD "")))))
          allergens := fun a => (rawLookup m.allergens (allergenName a)).getD "Unknown"
          source := .manual } := by
      simp only [normalizeManualItem]
      rw [if_neg hne]
    refine ⟨by rw [heq]; rfl, ?_⟩
    intro item hit
    rw [heq] at hit
    have := Option.some.inj hit
    subst this
    refine ⟨rfl, rfl, ?_, ?_, fun a => rfl⟩
    · intro hc
      show safeCategory _ = _
      rw [hc]
      exact safeCategory_categoryLabel _
    · intro c hc
      show safeCategory _ = _
      rw [hc]
      rfl

/-- Witness for C6: a blank name is dropped; a trimmed name with a stored
category and one stored allergen produces the expected item, whose
attribute values are the stored/default strings. -/
theorem c6_normalize_manual_witness :
    normalizeManualItem ⟨some "  ", none, none⟩ = none ∧
    (∀ a, ∀ item, normalizeManualItem ⟨some " Choco ", some "Cake",
        some [("Egg", "Yes")]⟩ = some item →
      item.allergens a = (rawLookup (some [("Egg", "Yes")]) (allergenName a)).getD
        "Unknown") := by
  refine ⟨(c6_normalize_manual ⟨some "  ", none, none⟩).1 (by decide), ?_⟩
  intro a item hit
  exact (((c6_normalize_manual ⟨some " Choco ", some "Cake",
    some [("Egg", "Yes")]⟩).2 (by decide)).2 item hit).2.2.2.2 a

theorem getGroup_pushRow (g : Grouped) (r : FlavorRecord) (c : Category) :
    getGroup (pushRow g r) c = getGroup g c ++ (if r.category = c then [r] else []) := by
  cases hr : r.category <;> cases c <;> simp [pushRow, getGroup, hr]

theorem getGroup_foldl (rows : List FlavorRecord) (g : Grouped) (c : Category) :
    getGroup (rows.foldl pushRow g) c =
      getGroup g c ++ rows.filter (fun r => r.category = c) := by
  induction rows generalizing g with
  | nil => simp
  | cons r t ih =>
    rw [List.foldl_cons, ih (pushRow g r), getGroup_pushRow]
    rw [List.filter_cons]
    by_cases hc : r.category = c
    · simp [hc]
    · simp [hc]

theorem getGroup_groupByCategory (rows : List FlavorRecord) (c : Category) :
    getGroup (groupByCategory rows) c =
      (rows.filter fun r => r.category = c).mergeSort rowLe := by
  have h := getGroup_foldl rows ⟨[], [], [], [], []⟩ c
  cases c <;>
    (simp only [getGroup] at h ⊢
     simp only [groupByCategory]
     rw [h]
     simp)

theorem count_filter_eq (a : FlavorRecord) (p : FlavorRecord → Bool)
    (l : List FlavorRecord) :
    (l.filter p).count a = if p a = true then l.count a else 0 := by
  split
  · next h => exact List.count_filter h
  · next h =>
    apply List.count_eq_zero.mpr
    intro hmem
    exact h (List.mem_filter.mp hmem).2

theorem groups_flatten_perm (rows : List FlavorRecord) :
    ((categoryOrder.map fun c => getGroup (groupByCategory rows) c).flatten).Perm rows := by
  apply List.perm_iff_count.mpr
  intro a
  simp only [categoryOrder, List.map_cons, List.map_nil, List.flatten_cons,
    List.flatten_nil, List.count_append, List.append_nil]
  rw [getGroup_groupByCategory, getGroup_groupByCategory, getGroup_groupByCategory,
    getGroup_groupByCategory, getGroup_groupByCategory]
  rw [(List.mergeSort_perm _ rowLe).count_eq, (List.mergeSort_perm _ rowLe).count_eq,
    (List.mergeSort_perm _ rowLe).count_eq, (List.mergeSort_perm _ rowLe).count_eq,
    (List.mergeSort_perm _ rowLe).count_eq]
  rw [count_filter_eq, count_filter_eq, count_filter_eq, count_filter_eq, count_filter_eq]
  cases hac : a.category <;> simp [hac]

theorem flatten_filter_nonempty (pairs : List (Category × List FlavorRecord)) :
    ((pairs.filter fun p => !p.2.isEmpty).map (·.2)).flatten =
      (pairs.map (·.2)).flatten := by
  induction pairs with
  | nil => rfl
  | cons p t ih =>
    rw [List.filter_cons]
    by_cases hp : (!p.2.isEmpty) = true
    · rw [if_pos hp]
      simp [ih]
    · rw [if_neg hp]
      have hp2 : p.2 = [] := by
        have := by simpa using hp
        simpa [List.isEmpty_iff] using this
      simp [ih, hp2]

/-- C8: grouped output.  The rows fed to grouping (`outputRows`) are
sorted by name; with split-by-category off the export is that single
sorted list; with it on the export is the grouped sections, which appear
in the fixed category order with empty categories omitted, each section
being its category's rows independently sorted by name; and the
concatenation of the sections is a permutation of the input rows (every
row lands in exactly one group). -/
theorem c8_grouped_output (st : EngineState) (rows : List FlavorRecord) :
    (outputRows st).Pairwise (fun a b => rowLe a b = true) ∧
    (st.splitByCategory = false → exportBodies st = [outputRows st]) ∧
    (st.splitByCategory = true →
      exportBodies st = (groupedSections (outputRows st)).map (·.2)) ∧
    groupedSections rows = (categoryOrder.map fun c =>
      (c, (rows.filter fun r => r.category = c).mergeSort rowLe)).filter
        (fun p => !p.2.isEmpty) ∧
    (∀ c, getGroup (groupByCategory rows) c =
      (rows.filter fun r => r.category = c).mergeSort rowLe) ∧
    (∀ c, (getGroup (groupByCategory rows) c).Pairwise
      (fun a b => rowLe a b = true)) ∧
    (((groupedSections rows).map (·.2)).flatten).Perm rows := by
  refine ⟨?_, ?_, ?_, ?_, getGroup_groupByCategory rows, ?_, ?_⟩
  · rw [outputRows_eq]
    exact (allRows_sorted st).filter _
  · intro h
    simp [exportBodies, h]
  · intro h
    simp [exportBodies, h]
  · unfold groupedSections
    congr 1
    apply List.map_congr_left
    intro c _
    rw [getGroup_groupByCategory]
  · intro c
    rw [getGroup_groupByCategory]
    exact List.sorted_mergeSort rowLe_trans rowLe_total _
  · unfold groupedSections
    rw [flatten_filter_nonempty, List.map_map]
    exact groups_flatten_perm rows

/-- Witness for C8: the export bodies at concrete states with
split-by-category off and on. -/
theorem c8_grouped_output_witness :
    exportBodies ⟨[], [], [], false, [], ""⟩ = [outputRows ⟨[], [], [], false, [], ""⟩] ∧
    exportBodies ⟨[], [], [], true, [], ""⟩ =
      (groupedSections (outputRows ⟨[], [], [], true, [], ""⟩)).map (·.2) :=
  ⟨(c8_grouped_output ⟨[], [], [], false, [], ""⟩ []).2.1 rfl,
    (c8_grouped_output ⟨[], [], [], true, [], ""⟩ []).2.2.1 rfl⟩
